import Mathlib

/-!
Verification of the local-search optimizers of `metaheuristics_rs`.

The Rust sources are embedded shallowly:

* scores (`ScoreType`, an `Ord` type such as `NotNan<f64>`) become an
  arbitrary `LinearOrder`;
* random number generation is absorbed into oracle functions: trial
  generation becomes `gen : ℕ → ℕ → σ → γ → σ × γ` (iteration index,
  trial index inside the batch, current state, current score hint), and
  the uniform draws of the epsilon-greedy acceptance become
  `draws : ℕ → ℚ`;
* the rayon fan-out/`min_by_key` fan-in is modelled as a left fold over
  one linearization of the reduction order, keeping the earlier element
  on ties exactly as `cmp::min_by` does;
* `.unwrap()` on an `Option` becomes `Option` propagation: `none` marks
  the panic;
* the optimizer loops are embedded for runs with `callback = None`
  (the callback invocation is a no-op on engine state in that mode);
  the callback data flow itself is modelled separately with an explicit
  store for the `Rc<RefCell<_>>` best-state cell.

Each loop additionally returns the list of per-iteration improvement
flags (`true` when `best_score` strictly improved in that iteration), so
that trace statements such as the patience bound can be expressed.
-/

/-- Rayon fan-in of `min_by_key` starting from accumulator `a`: keeps the
earlier element when scores tie, as `std::cmp::min_by` returns its first
argument on equality. -/
def minFold {σ γ : Type} [LinearOrder γ] (a : σ × γ) (l : List (σ × γ)) : σ × γ :=
  l.foldl (fun acc x => if x.2 < acc.2 then x else acc) a

/-- Embeds `.min_by_key(|(_, score)| *score)` over a batch of
(state, score) pairs; `none` when the batch is empty. -/
def minByKey {σ γ : Type} [LinearOrder γ] (l : List (σ × γ)) : Option (σ × γ) :=
  match l with
  | [] => none
  | x :: xs => some (minFold x xs)

/-- Embeds the batch `(0..n_trials).map(|_| generate_trial_state(current, rng, Some(current_score)))`
of hill_climbing.rs lines 43-50 and epsilon_greedy.rs lines 63-70.  The
oracle `gen` takes the iteration index and the trial index in place of
the per-task RNG stream. -/
def trialBatch {σ γ : Type} (n_trials : ℕ) (gen : ℕ → ℕ → σ → γ → σ × γ)
    (it : ℕ) (current_state : σ) (current_score : γ) : List (σ × γ) :=
  (List.range n_trials).map fun j => gen it j current_state current_score

/-- The mutable locals of both optimizer loops (hill_climbing.rs lines
31-41, epsilon_greedy.rs lines 51-61).  The `Rc<RefCell<_>>` holding
`best_state` is flattened to a plain field here; this is exact for runs
whose callback is `None` (nothing else aliases the cell). -/
structure SearchState (σ γ : Type) where
  current_state : σ
  current_score : γ
  best_state : σ
  best_score : γ
  counter : ℕ
  accepted_counter : ℕ
deriving DecidableEq, Repr

/-- Initial loop state: `current_score = evaluate_state(current)`,
`best_state` a copy of the initial state, `best_score = current_score`,
both counters zero. -/
def initState {σ γ : Type} (eval : σ → γ) (initial_state : σ) : SearchState σ γ :=
  { current_state := initial_state
    current_score := eval initial_state
    best_state := initial_state
    best_score := eval initial_state
    counter := 0
    accepted_counter := 0 }

/-- Greedy acceptance criterion of hill_climbing.rs line 54:
`trial_score < current_score`. -/
def greedyAccept {γ : Type} [LinearOrder γ] (current_score trial_score : γ) : Bool :=
  decide (trial_score < current_score)

/-- Epsilon-greedy acceptance condition of epsilon_greedy.rs line 76:
`trial_score < current_score || self.epsilon > r`, with the f64 values
`epsilon` and the uniform draw `r` embedded as rationals. -/
def egAccept {γ : Type} [LinearOrder γ] (epsilon r : ℚ) (current_score trial_score : γ) : Bool :=
  decide (trial_score < current_score) || decide (epsilon > r)

/-- Configuration of `HillClimbingOptimizer` plus the model oracles it
consumes: `evaluate_state` and the trial-generation oracle. -/
structure HCParams (σ γ : Type) where
  patience : ℕ
  n_trials : ℕ
  eval : σ → γ
  gen : ℕ → ℕ → σ → γ → σ × γ

/-- Configuration of `EpsilonGreedyOptimizer` plus the model oracles and
the per-iteration uniform draws `r = rng.gen()`. -/
structure EGParams (σ γ : Type) where
  patience : ℕ
  n_trials : ℕ
  epsilon : ℚ
  eval : σ → γ
  gen : ℕ → ℕ → σ → γ → σ × γ
  draws : ℕ → ℚ

/-- One iteration of `HillClimbingOptimizer::optimize` (hill_climbing.rs
lines 43-66).  Returns the updated state, the improvement flag (the
accepted branch, which in hill climbing is exactly a strict best-score
improvement), and whether the `break` fires; `none` embeds the panic of
`.min_by_key(..).unwrap()` on an empty batch. -/
def HillClimbing.step {σ γ : Type} [LinearOrder γ] (P : HCParams σ γ) (it : ℕ)
    (s : SearchState σ γ) : Option (SearchState σ γ × Bool × Bool) :=
  match minByKey (trialBatch P.n_trials P.gen it s.current_state s.current_score) with
  | none => none
  | some (trial_state, trial_score) =>
    if greedyAccept s.current_score trial_score then
      some ({ current_state := trial_state
              current_score := trial_score
              best_state := trial_state
              best_score := trial_score
              counter := 0
              accepted_counter := s.accepted_counter + 1 }, true, false)
    else
      some ({ s with counter := s.counter + 1 }, false, decide (P.patience ≤ s.counter + 1))

/-- One iteration of `EpsilonGreedyOptimizer::optimize` (epsilon_greedy.rs
lines 63-91): accept when `trial_score < current_score || epsilon > r`;
update the best snapshot and reset `counter` when the possibly-updated
`current_score` strictly improves on `best_score`; then increment
`counter` unconditionally and `break` when `counter == patience`.  The
improvement flag records the best-update branch. -/
def EpsilonGreedy.step {σ γ : Type} [LinearOrder γ] (P : EGParams σ γ) (it : ℕ)
    (s : SearchState σ γ) : Option (SearchState σ γ × Bool × Bool) :=
  match minByKey (trialBatch P.n_trials P.gen it s.current_state s.current_score) with
  | none => none
  | some (trial_state, trial_score) =>
    let r := P.draws it
    let s1 := if egAccept P.epsilon r s.current_score trial_score then
        { s with current_state := trial_state
                 current_score := trial_score
                 accepted_counter := s.accepted_counter + 1 }
      else s
    let s2 := if s1.current_score < s1.best_score then
        { s1 with best_state := s1.current_state
                  best_score := s1.current_score
                  counter := 0 }
      else s1
    let s3 := { s2 with counter := s2.counter + 1 }
    some (s3, decide (s1.current_score < s1.best_score), decide (s3.counter = P.patience))

/-- The shared shape of both optimizer loops `for it in 0..n_iter { .. }`:
`it` is the current iteration index, the second argument the remaining
iteration budget.  The result carries the list of per-iteration
improvement flags next to the final state; `none` propagates a panic. -/
def runLoop {σ γ : Type} (step : ℕ → SearchState σ γ → Option (SearchState σ γ × Bool × Bool)) :
    ℕ → ℕ → SearchState σ γ → Option (List Bool × SearchState σ γ)
  | _, 0, s => some ([], s)
  | it, r + 1, s =>
    match step it s with
    | none => none
    | some (s', imp, brk) =>
      if brk then some ([imp], s')
      else (runLoop step (it + 1) r s').map fun p => (imp :: p.1, p.2)

/-- HillClimbingOptimizer::optimize for a caller-supplied initial state
and `callback = None`: run the loop and return
`(current_state, current_score)` (hill_climbing.rs line 75). -/
def HillClimbing.optimize {σ γ : Type} [LinearOrder γ] (P : HCParams σ γ)
    (initial_state : σ) (n_iter : ℕ) : Option (σ × γ) :=
  (runLoop (HillClimbing.step P) 0 n_iter (initState P.eval initial_state)).map
    fun p => (p.2.current_state, p.2.current_score)

/-- EpsilonGreedyOptimizer::optimize for a caller-supplied initial state
and `callback = None`: run the loop and return the tracked best snapshot
`(best_state, best_score)` (epsilon_greedy.rs lines 100-101). -/
def EpsilonGreedy.optimize {σ γ : Type} [LinearOrder γ] (P : EGParams σ γ)
    (initial_state : σ) (n_iter : ℕ) : Option (σ × γ) :=
  (runLoop (EpsilonGreedy.step P) 0 n_iter (initState P.eval initial_state)).map
    fun p => (p.2.best_state, p.2.best_score)

/-- One-based index of the last `true` in an improvement trace, `0` when
no entry is `true`.  Interprets iteration `k` of the loop (0-based) as
iteration number `k + 1`. -/
def lastTrue : List Bool → ℕ
  | [] => 0
  | b :: tr => if lastTrue tr = 0 then (if b then 1 else 0) else lastTrue tr + 1

/-- The three model operations consumed by `LocalSearchOptimizer::run`
(base.rs lines 36-57), with the RNG absorbed into the random-generation
oracle and fallibility embedded as `Except ε`. -/
structure RunModel (σ γ ε : Type) where
  generate_random_solution : Except ε (σ × γ)
  preprocess_solution : σ → γ → Except ε (σ × γ)
  postprocess_solution : σ → γ → σ × γ

/-- Resolution of the optional initial pair (base.rs lines 36-42): take
the supplied pair, or fall back to `generate_random_solution` with `?`
propagation. -/
def resolveInitial {σ γ ε : Type} (m : RunModel σ γ ε)
    (initial_solution_and_score : Option (σ × γ)) : Except ε (σ × γ) :=
  match initial_solution_and_score with
  | some p => Except.ok p
  | none => m.generate_random_solution

/-- Embeds `LocalSearchOptimizer::run` (base.rs lines 24-58): resolve the
initial pair, preprocess it, delegate to `optimize` (an infallible
function of the initial pair in this trait), postprocess, return. -/
def LocalSearchOptimizer.run {σ γ ε : Type} (m : RunModel σ γ ε)
    (optimize : σ → γ → σ × γ)
    (initial_solution_and_score : Option (σ × γ)) : Except ε (σ × γ) :=
  match resolveInitial m initial_solution_and_score with
  | Except.error e => Except.error e
  | Except.ok p =>
    match m.preprocess_solution p.1 p.2 with
    | Except.error e => Except.error e
    | Except.ok q =>
      let r := optimize q.1 q.2
      Except.ok (m.postprocess_solution r.1 r.2)

/-- Modelled from the spec: the `OptProgress` record of the missing
callback.rs, with fields per spec section 6
(`iteration`, `accepted_count`, best solution, best score) and the best
solution stored the way the call sites pass it
(`OptProgress::new(it, accepted_counter, best_state.clone(), best_score)`
with `best_state : Rc<RefCell<StateType>>`): the `state` field is the
reference-counted cell, modelled as an address into a store. -/
structure OptProgress (γ : Type) where
  it : ℕ
  accepted_counter : ℕ
  state : ℕ
  score : γ
deriving DecidableEq, Repr

/-- Heap fragment for the `Rc<RefCell<StateType>>` cells: a map from cell
addresses to solution values. -/
def Store (σ : Type) := ℕ → σ

/-- Write through a cell handle (`RefCell::replace` via a held `Rc`). -/
def writeCell {σ : Type} (store : Store σ) (addr : ℕ) (v : σ) : Store σ :=
  fun n => if n = addr then v else store n

/-- Read through a cell handle (`RefCell::borrow`). -/
def readCell {σ : Type} (store : Store σ) (addr : ℕ) : σ := store addr

/-- Embeds the callback invocation of hill_climbing.rs lines 68-72 /
epsilon_greedy.rs lines 93-97: build the progress record from the loop
state, passing `best_state.clone()` — the engine's own cell address —
and invoke the callback, which may update the store through any cell
handle it holds. -/
def invokeCallback {σ γ : Type} (f : OptProgress γ → Store σ → Store σ)
    (it accepted_counter : ℕ) (best_state : ℕ) (best_score : γ)
    (store : Store σ) : Store σ :=
  f { it := it, accepted_counter := accepted_counter, state := best_state,
      score := best_score } store

/-- Embeds epsilon_greedy.rs line 100: the engine's final read
`(*best_state.borrow()).clone()` of its best-state cell. -/
def finalBestRead {σ : Type} (store : Store σ) (best_state : ℕ) : σ :=
  readCell store best_state

/-- Embeds `transition_prob` of relative_annealing.rs lines 7-12:
`d = (trial - current) / current; exp(-w * d)`, with the f64 arithmetic
embedded over the reals. -/
noncomputable def transition_prob (current trial w : ℝ) : ℝ :=
  Real.exp (-w * ((trial - current) / current))

/-- Concrete hill-climbing fixture over `σ = γ = ℤ`: every trial is the
state `0` with score `5`, the initial evaluation is `10`. -/
def hcFixture : HCParams ℤ ℤ :=
  { patience := 1
    n_trials := 1
    eval := fun _ => 10
    gen := fun _ _ _ _ => (0, 5) }

/-- Concrete epsilon-greedy fixture mirroring `hcFixture`, with
`epsilon = 0` and all uniform draws equal to `1`. -/
def egFixture : EGParams ℤ ℤ :=
  { patience := 1
    n_trials := 1
    epsilon := 0
    eval := fun _ => 10
    gen := fun _ _ _ _ => (0, 5)
    draws := fun _ => 1 }

/-- Epsilon-greedy fixture with a patience of `5`, so that the first
iteration improves the best score without breaking. -/
def egFixtureWide : EGParams ℤ ℤ :=
  { egFixture with patience := 5 }

/-- Concrete run model whose preprocessing rejects every pair with error
code `42`. -/
def runFixtureErr : RunModel ℤ ℤ ℤ :=
  { generate_random_solution := Except.ok (1, 2)
    preprocess_solution := fun _ _ => Except.error 42
    postprocess_solution := fun s sc => (s, sc) }

/-- Callback that writes the value `99` through the best-state cell
handle carried by its progress record (`progress.state.replace(99)`). -/
def mutatingCallback : OptProgress ℤ → Store ℤ → Store ℤ :=
  fun progress store => writeCell store progress.state 99

/-- State after the first iteration of the hill-climbing fixture run:
the trial (0, 5) is accepted and becomes both current and best. -/
def hcStepResult : SearchState ℤ ℤ :=
  { current_state := 0, current_score := 5, best_state := 0, best_score := 5,
    counter := 0, accepted_counter := 1 }

/-- State after the first iteration of the epsilon-greedy fixtures (also
the final state of the fixture runs): the trial (0, 5) is accepted, the
best snapshot is updated, and the counter ends at 1. -/
def egStepResult : SearchState ℤ ℤ :=
  { current_state := 0, current_score := 5, best_state := 0, best_score := 5,
    counter := 1, accepted_counter := 1 }

/-- Hill-climbing fixture with an empty trial batch (n_trials = 0). -/
def zeroTrialsHC : HCParams ℤ ℤ :=
  { hcFixture with n_trials := 0 }

/-- Epsilon-greedy fixture with an empty trial batch (n_trials = 0). -/
def zeroTrialsEG : EGParams ℤ ℤ :=
  { egFixture with n_trials := 0 }

/-- Epsilon-greedy fixture with patience = 0 whose trials never improve:
trials score 20 against a current score of 10 and are never accepted. -/
def egPatienceZero : EGParams ℤ ℤ :=
  { egFixture with patience := 0, gen := fun _ _ _ _ => (0, 20) }

/-- Final state of a 3-iteration run of `egPatienceZero`: nothing is
ever accepted and the counter reaches 3 without the break firing. -/
def egNoImproveFin : SearchState ℤ ℤ :=
  { current_state := 0, current_score := 10, best_state := 0, best_score := 10,
    counter := 3, accepted_counter := 0 }

theorem runLoop_zero {σ γ : Type}
    (step : ℕ → SearchState σ γ → Option (SearchState σ γ × Bool × Bool))
    (it : ℕ) (s : SearchState σ γ) : runLoop step it 0 s = some ([], s) := rfl

theorem runLoop_succ {σ γ : Type}
    (step : ℕ → SearchState σ γ → Option (SearchState σ γ × Bool × Bool))
    (it r : ℕ) (s : SearchState σ γ) :
    runLoop step it (r + 1) s =
      match step it s with
      | none => none
      | some (s', imp, brk) =>
        if brk then some ([imp], s')
        else (runLoop step (it + 1) r s').map fun p => (imp :: p.1, p.2) := rfl

theorem runLoop_inv {σ γ : Type}
    (step : ℕ → SearchState σ γ → Option (SearchState σ γ × Bool × Bool))
    (Inv : SearchState σ γ → Prop)
    (hstep : ∀ it s s' imp brk, Inv s → step it s = some (s', imp, brk) → Inv s') :
    ∀ it r (s : SearchState σ γ) tr fin,
      Inv s → runLoop step it r s = some (tr, fin) → Inv fin := by
  intro it r
  induction r generalizing it with
  | zero =>
    intro s tr fin hs h
    rw [runLoop_zero] at h
    cases h
    exact hs
  | succ r ih =>
    intro s tr fin hs h
    rw [runLoop_succ] at h
    rcases hst : step it s with _ | ⟨s', imp, brk⟩ <;> rw [hst] at h
    · exact absurd h (by simp)
    · have hs' : Inv s' := hstep it s s' imp brk hs hst
      dsimp only at h
      cases brk with
      | true =>
        rw [if_pos rfl] at h
        cases h
        exact hs'
      | false =>
        rw [if_neg Bool.false_ne_true] at h
        rcases hrec : runLoop step (it + 1) r s' with _ | ⟨tr', fin'⟩ <;> rw [hrec] at h
        · exact absurd h (by simp)
        · simp only [Option.map_some'] at h
          cases h
          exact ih (it + 1) s' tr' _ hs' hrec

theorem lastTrue_nil : lastTrue [] = 0 := rfl

theorem lastTrue_cons (b : Bool) (tr : List Bool) :
    lastTrue (b :: tr) =
      if lastTrue tr = 0 then (if b then 1 else 0) else lastTrue tr + 1 := rfl

theorem runLoop_succ_inv {σ γ : Type}
    (step : ℕ → SearchState σ γ → Option (SearchState σ γ × Bool × Bool))
    (it r : ℕ) (s : SearchState σ γ) (tr : List Bool) (fin : SearchState σ γ)
    (h : runLoop step it (r + 1) s = some (tr, fin)) :
    ∃ s' imp brk, step it s = some (s', imp, brk) ∧
      ((brk = true ∧ tr = [imp] ∧ fin = s') ∨
       (brk = false ∧ ∃ tr', runLoop step (it + 1) r s' = some (tr', fin) ∧
         tr = imp :: tr')) := by
  rw [runLoop_succ] at h
  rcases hst : step it s with _ | ⟨s', imp, brk⟩ <;> rw [hst] at h
  · exact absurd h (by simp)
  · dsimp only at h
    refine ⟨s', imp, brk, rfl, ?_⟩
    cases brk with
    | true =>
      rw [if_pos rfl] at h
      cases h
      exact Or.inl ⟨rfl, rfl, rfl⟩
    | false =>
      rw [if_neg Bool.false_ne_true] at h
      rcases hrec : runLoop step (it + 1) r s' with _ | ⟨tr', fin'⟩ <;> rw [hrec] at h
      · exact absurd h (by simp)
      · simp only [Option.map_some'] at h
        cases h
        exact Or.inr ⟨rfl, tr', rfl, rfl⟩

theorem runLoop_patience_bound {σ γ : Type}
    (step : ℕ → SearchState σ γ → Option (SearchState σ γ × Bool × Bool))
    (patience cReset : ℕ)
    (Himp : ∀ it s s' brk, step it s = some (s', true, brk) → s'.counter = cReset)
    (Hninc : ∀ it s s' brk, step it s = some (s', false, brk) →
      s'.counter = s.counter + 1)
    (Hcont : ∀ it s s' imp, s.counter < patience →
      step it s = some (s', imp, false) → s'.counter < patience)
    (Hbrk : ∀ it s s' imp, s.counter < patience →
      step it s = some (s', imp, true) → s'.counter ≤ patience) :
    ∀ it r (s : SearchState σ γ) tr fin, s.counter < patience →
      runLoop step it r s = some (tr, fin) →
      (lastTrue tr = 0 → tr.length + s.counter ≤ patience) ∧
      (lastTrue tr ≠ 0 → tr.length + cReset ≤ lastTrue tr + patience) := by
  intro it r
  induction r generalizing it with
  | zero =>
    intro s tr fin hs h
    rw [runLoop_zero] at h
    cases h
    exact ⟨fun _ => by simpa using Nat.le_of_lt hs, fun hne => absurd rfl hne⟩
  | succ r ih =>
    intro s tr fin hs h
    obtain ⟨s', imp, brk, hst, hcase⟩ := runLoop_succ_inv step it r s tr fin h
    rcases hcase with ⟨hbrk, htr, hfin⟩ | ⟨hbrk, tr', hrec, htr⟩
    · subst hbrk htr
      cases imp with
      | true =>
        have hc : s'.counter = cReset := Himp it s s' true hst
        have hle : s'.counter ≤ patience := Hbrk it s s' true hs hst
        constructor
        · intro h0
          simp [lastTrue_cons, lastTrue_nil] at h0
        · intro _
          have h1 : lastTrue [true] = 1 := rfl
          rw [h1]
          simp only [List.length_cons, List.length_nil]
          omega
      | false =>
        have hc : s'.counter = s.counter + 1 := Hninc it s s' true hst
        have hle : s'.counter ≤ patience := Hbrk it s s' false hs hst
        constructor
        · intro _
          simp only [List.length_cons, List.length_nil]
          omega
        · intro hne
          exact absurd (by simp [lastTrue_cons, lastTrue_nil]) hne
    · subst hbrk htr
      have hs' : s'.counter < patience := Hcont it s s' imp hs hst
      have IH := ih (it + 1) s' tr' fin hs' hrec
      cases imp with
      | true =>
        have hc : s'.counter = cReset := Himp it s s' false hst
        constructor
        · intro h0
          rw [lastTrue_cons] at h0
          by_cases hz : lastTrue tr' = 0 <;> simp [hz] at h0
        · intro _
          rw [lastTrue_cons]
          by_cases hz : lastTrue tr' = 0
          · have hb := IH.1 hz
            simp only [hz, if_pos, List.length_cons, if_true]
            omega
          · have hb := IH.2 hz
            rw [if_neg hz]
            simp only [List.length_cons]
            omega
      | false =>
        have hc : s'.counter = s.counter + 1 := Hninc it s s' false hst
        constructor
        · intro h0
          rw [lastTrue_cons] at h0
          by_cases hz : lastTrue tr' = 0
          · have hb := IH.1 hz
            simp only [List.length_cons]
            omega
          · rw [if_neg hz] at h0
            exact absurd h0 (by omega)
        · intro hne
          rw [lastTrue_cons] at hne ⊢
          by_cases hz : lastTrue tr' = 0
          · simp [hz] at hne
          · have hb := IH.2 hz
            rw [if_neg hz] at hne ⊢
            simp only [List.length_cons]
            omega

theorem hcStep_spec {σ γ : Type} [LinearOrder γ] (P : HCParams σ γ)
    (it : ℕ) (s s' : SearchState σ γ) (imp brk : Bool)
    (h : HillClimbing.step P it s = some (s', imp, brk)) :
    s'.current_score ≤ s.current_score ∧
    (imp = true →
      s'.counter = 0 ∧ s'.best_state = s'.current_state ∧
      s'.best_score = s'.current_score ∧ s'.current_score < s.current_score ∧
      brk = false ∧ s'.accepted_counter = s.accepted_counter + 1) ∧
    (imp = false →
      s' = { s with counter := s.counter + 1 } ∧
      (brk = true ↔ P.patience ≤ s.counter + 1)) := by
  unfold HillClimbing.step at h
  rcases hmin : minByKey
      (trialBatch P.n_trials P.gen it s.current_state s.current_score) with _ | ⟨ts, tc⟩ <;>
    rw [hmin] at h
  · exact absurd h (by simp)
  · dsimp only at h
    by_cases hacc : greedyAccept s.current_score tc = true
    · rw [if_pos hacc] at h
      cases h
      have hlt : tc < s.current_score := by simpa [greedyAccept] using hacc
      refine ⟨le_of_lt hlt, ?_, ?_⟩
      · intro _
        exact ⟨rfl, rfl, rfl, hlt, rfl, rfl⟩
      · intro hfalse
        simp at hfalse
    · rw [if_neg hacc] at h
      cases h
      refine ⟨le_refl _, ?_, ?_⟩
      · intro htrue
        simp at htrue
      · intro _
        exact ⟨rfl, by simp⟩


theorem egStep_spec {σ γ : Type} [LinearOrder γ] (P : EGParams σ γ)
    (it : ℕ) (s s' : SearchState σ γ) (imp brk : Bool)
    (h : EpsilonGreedy.step P it s = some (s', imp, brk)) :
    (imp = true ↔ s'.best_score < s.best_score) ∧
    (imp = true → s'.counter = 1 ∧ s'.best_state = s'.current_state ∧
      s'.best_score = s'.current_score) ∧
    (imp = false → s'.counter = s.counter + 1 ∧ s'.best_state = s.best_state ∧
      s'.best_score = s.best_score) ∧
    s'.best_score ≤ s'.current_score ∧
    (brk = true ↔ s'.counter = P.patience) := by
  unfold EpsilonGreedy.step at h
  rcases hmin : minByKey
      (trialBatch P.n_trials P.gen it s.current_state s.current_score) with _ | ⟨ts, tc⟩ <;>
    rw [hmin] at h
  · exact absurd h (by simp)
  · dsimp only at h
    split at h
    · rename_i hacc
      split at h
      · rename_i himp
        cases h
        dsimp only at himp ⊢
        refine ⟨?_, fun _ => ⟨rfl, rfl, rfl⟩, ?_, le_refl _, ?_⟩
        · simp [himp]
        · intro hf
          simp [himp] at hf
        · simp
      · rename_i himp
        cases h
        dsimp only at himp ⊢
        refine ⟨?_, ?_, fun _ => ⟨rfl, rfl, rfl⟩, ?_, ?_⟩
        · simp [himp]
        · intro ht
          simp [himp] at ht
        · exact not_lt.mp himp
        · simp
    · rename_i hacc
      split at h
      · rename_i himp
        cases h
        dsimp only at himp ⊢
        refine ⟨?_, fun _ => ⟨rfl, rfl, rfl⟩, ?_, le_refl _, ?_⟩
        · simp [himp]
        · intro hf
          simp [himp] at hf
        · simp
      · rename_i himp
        cases h
        dsimp only at himp ⊢
        refine ⟨?_, ?_, fun _ => ⟨rfl, rfl, rfl⟩, ?_, ?_⟩
        · simp [himp]
        · intro ht
          simp [himp] at ht
        · exact not_lt.mp himp
        · simp

theorem minFold_spec {σ γ : Type} [LinearOrder γ] :
    ∀ (l : List (σ × γ)) (a : σ × γ),
      (minFold a l).2 ≤ a.2 ∧ (∀ x ∈ l, (minFold a l).2 ≤ x.2) ∧
      (minFold a l = a ∨
        ∃ l₁ l₂, l = l₁ ++ minFold a l :: l₂ ∧ (minFold a l).2 < a.2 ∧
          ∀ x ∈ l₁, (minFold a l).2 < x.2) := by
  intro l
  induction l with
  | nil =>
    intro a
    exact ⟨le_refl _, by simp, Or.inl rfl⟩
  | cons x xs ih =>
    intro a
    have hfold : minFold a (x :: xs) = minFold (if x.2 < a.2 then x else a) xs := rfl
    by_cases hxa : x.2 < a.2
    · rw [hfold, if_pos hxa]
      obtain ⟨h1, h2, h3⟩ := ih x
      refine ⟨le_of_lt (lt_of_le_of_lt h1 hxa), ?_, ?_⟩
      · intro y hy
        rcases List.mem_cons.mp hy with rfl | hy
        · exact h1
        · exact h2 y hy
      · right
        rcases h3 with heq | ⟨l₁, l₂, hdec, hlt, hstrict⟩
        · refine ⟨[], xs, ?_, ?_, by simp⟩
          · rw [heq]
            rfl
          · rw [heq]
            exact hxa
        · refine ⟨x :: l₁, l₂, ?_, lt_trans hlt hxa, ?_⟩
          · rw [List.cons_append]
            exact congrArg (List.cons x) hdec
          · intro y hy
            rcases List.mem_cons.mp hy with rfl | hy
            · exact hlt
            · exact hstrict y hy
    · rw [hfold, if_neg hxa]
      have hax : a.2 ≤ x.2 := not_lt.mp hxa
      obtain ⟨h1, h2, h3⟩ := ih a
      refine ⟨h1, ?_, ?_⟩
      · intro y hy
        rcases List.mem_cons.mp hy with rfl | hy
        · exact le_trans h1 hax
        · exact h2 y hy
      · rcases h3 with heq | ⟨l₁, l₂, hdec, hlt, hstrict⟩
        · exact Or.inl heq
        · refine Or.inr ⟨x :: l₁, l₂, ?_, hlt, ?_⟩
          · rw [List.cons_append]
            exact congrArg (List.cons x) hdec
          · intro y hy
            rcases List.mem_cons.mp hy with rfl | hy
            · exact lt_of_lt_of_le hlt hax
            · exact hstrict y hy

theorem hcStep_counter_cases {σ γ : Type} [LinearOrder γ] (P : HCParams σ γ)
    (it : ℕ) (s s' : SearchState σ γ) (imp brk : Bool)
    (h : HillClimbing.step P it s = some (s', imp, brk)) :
    (imp = true → s'.counter = 0 ∧ brk = false) ∧
    (imp = false → s'.counter = s.counter + 1 ∧
      (brk = true ↔ P.patience ≤ s.counter + 1)) := by
  have spec := hcStep_spec P it s s' imp brk h
  constructor
  · intro hi
    exact ⟨(spec.2.1 hi).1, (spec.2.1 hi).2.2.2.2.1⟩
  · intro hi
    obtain ⟨hrec, hbrk⟩ := spec.2.2 hi
    refine ⟨?_, hbrk⟩
    rw [hrec]

theorem egStep_counter_cases {σ γ : Type} [LinearOrder γ] (P : EGParams σ γ)
    (it : ℕ) (s s' : SearchState σ γ) (imp brk : Bool)
    (h : EpsilonGreedy.step P it s = some (s', imp, brk)) :
    (imp = true → s'.counter = 1) ∧
    (imp = false → s'.counter = s.counter + 1) ∧
    (brk = true ↔ s'.counter = P.patience) := by
  have spec := egStep_spec P it s s' imp brk h
  exact ⟨fun hi => (spec.2.1 hi).1, fun hi => (spec.2.2.1 hi).1, spec.2.2.2.2⟩

/-- C1: For every run of HillClimbingOptimizer::optimize, the final
returned score is less than or equal to the initial solution's score:
the greedy acceptance replaces current only when
trial_score < current_score, so no accepted move ever increases the
current score. -/
theorem C1_hill_climbing_monotone {σ γ : Type} [LinearOrder γ]
    (P : HCParams σ γ) (initial_state : σ) (n_iter : ℕ) (st : σ) (sc : γ)
    (h : HillClimbing.optimize P initial_state n_iter = some (st, sc)) :
    sc ≤ P.eval initial_state := by
  unfold HillClimbing.optimize at h
  rcases hrun : runLoop (HillClimbing.step P) 0 n_iter (initState P.eval initial_state)
      with _ | ⟨tr, fin⟩ <;> rw [hrun] at h
  · exact absurd h (by simp)
  · simp only [Option.map_some'] at h
    cases h
    exact runLoop_inv (HillClimbing.step P)
      (fun s => s.current_score ≤ P.eval initial_state)
      (fun it s s' imp brk hs hst =>
        le_trans (hcStep_spec P it s s' imp brk hst).1 hs)
      0 n_iter (initState P.eval initial_state) tr fin (le_refl _) hrun

theorem C1_witness :
    HillClimbing.optimize hcFixture 0 3 = some (0, 5) ∧ (5 : ℤ) ≤ hcFixture.eval 0 :=
  ⟨by decide, C1_hill_climbing_monotone hcFixture 0 3 0 5 (by decide)⟩

/-- C2 counterexample: an iteration of EpsilonGreedyOptimizer::optimize
in which best_score strictly improves (10 to 5) yet the patience counter
ends at 1 rather than 0 — the counter is also incremented on improving
iterations (epsilon_greedy.rs line 88 runs unconditionally after the
reset on line 85), refuting the claim that it is incremented on no other
iteration than the non-improving ones. -/
theorem C2_counterexample :
    EpsilonGreedy.step egFixtureWide 0 (initState egFixtureWide.eval 0) =
      some (egStepResult, true, false) ∧
    egStepResult.best_score < (initState egFixtureWide.eval 0).best_score ∧
    egStepResult.counter = 1 ∧ ¬ egStepResult.counter = 0 := by
  decide

/-- C2 (amended): in HillClimbingOptimizer::optimize the patience counter
is reset to zero exactly when best_score strictly improves and is
incremented by one on every other iteration; in
EpsilonGreedyOptimizer::optimize the counter is reset and then
unconditionally incremented, so it equals 1 (not 0) after an iteration
in which best_score strictly improves, and equals counter + 1 after
every other iteration. -/
theorem C2_amended_patience_counter {σ γ : Type} [LinearOrder γ]
    (Phc : HCParams σ γ) (Peg : EGParams σ γ) (it : ℕ)
    (s s' t t' : SearchState σ γ) (imp brk imp2 brk2 : Bool) :
    (HillClimbing.step Phc it s = some (s', imp, brk) →
      s.best_score = s.current_score →
      ((imp = true ↔ s'.best_score < s.best_score) ∧
       (imp = true → s'.counter = 0) ∧
       (imp = false → s'.counter = s.counter + 1))) ∧
    (EpsilonGreedy.step Peg it t = some (t', imp2, brk2) →
      ((imp2 = true ↔ t'.best_score < t.best_score) ∧
       (imp2 = true → t'.counter = 1) ∧
       (imp2 = false → t'.counter = t.counter + 1))) := by
  constructor
  · intro h hbc
    have spec := hcStep_spec Phc it s s' imp brk h
    refine ⟨?_, fun hi => (spec.2.1 hi).1, fun hi => by rw [(spec.2.2 hi).1]⟩
    constructor
    · intro hi
      obtain ⟨-, -, hbs, hlt, -, -⟩ := spec.2.1 hi
      rw [hbc, hbs]
      exact hlt
    · intro hlt
      cases imp with
      | true => rfl
      | false =>
        rw [(spec.2.2 rfl).1] at hlt
        exact absurd hlt (lt_irrefl _)
  · intro h
    have spec := egStep_spec Peg it t t' imp2 brk2 h
    exact ⟨spec.1, fun hi => (spec.2.1 hi).1, fun hi => (spec.2.2.1 hi).1⟩

theorem C2_amended_witness :
    HillClimbing.step hcFixture 0 (initState hcFixture.eval 0) =
      some (hcStepResult, true, false) ∧
    (initState hcFixture.eval 0).best_score = (initState hcFixture.eval 0).current_score ∧
    hcStepResult.counter = 0 ∧
    EpsilonGreedy.step egFixtureWide 0 (initState egFixtureWide.eval 0) =
      some (egStepResult, true, false) ∧
    egStepResult.counter = 1 :=
  ⟨by decide, rfl,
   ((C2_amended_patience_counter hcFixture egFixtureWide 0
      (initState hcFixture.eval 0) hcStepResult
      (initState egFixtureWide.eval 0) egStepResult
      true false true false).1 (by decide) rfl).2.1 rfl,
   by decide,
   ((C2_amended_patience_counter hcFixture egFixtureWide 0
      (initState hcFixture.eval 0) hcStepResult
      (initState egFixtureWide.eval 0) egStepResult
      true false true false).2 (by decide)).2.1 rfl⟩

/-- C5: EpsilonGreedyOptimizer with epsilon = 0 never accepts a degrading
move: for every current_score, trial_score and every uniform draw
r with 0 ≤ r, the acceptance condition
trial_score < current_score || epsilon > r with epsilon = 0 holds
exactly when trial_score < current_score, i.e. its acceptance decision
equals the Greedy criterion's, modulo the unused random draw. -/
theorem C5_epsilon_zero_is_greedy {γ : Type} [LinearOrder γ]
    (current_score trial_score : γ) (r : ℚ) (hr : 0 ≤ r) :
    egAccept 0 r current_score trial_score = greedyAccept current_score trial_score := by
  unfold egAccept greedyAccept
  have hnr : ¬ ((0 : ℚ) > r) := not_lt.mpr hr
  simp [hnr]

theorem C5_witness :
    (0 : ℚ) ≤ 1/2 ∧
    egAccept 0 (1/2) (5 : ℤ) 3 = greedyAccept (5 : ℤ) 3 :=
  ⟨by norm_num, C5_epsilon_zero_is_greedy 5 3 (1/2) (by norm_num)⟩

/-- C6: the trial selected by the min_by_key reduction over a batch has
minimal score — the selected score is ≤ every score in the batch — and
ties are broken by the order trials are encountered during the
reduction: every trial strictly earlier in the reduction order than the
selected one has a strictly greater score. -/
theorem C6_min_reduction {σ γ : Type} [LinearOrder γ] (l : List (σ × γ))
    (st : σ) (sc : γ) (h : minByKey l = some (st, sc)) :
    (∀ x ∈ l, sc ≤ x.2) ∧
    ∃ l₁ l₂, l = l₁ ++ (st, sc) :: l₂ ∧ ∀ x ∈ l₁, sc < x.2 := by
  cases l with
  | nil => exact absurd h (by simp [minByKey])
  | cons x xs =>
    have hm : minFold x xs = (st, sc) := by
      have : some (minFold x xs) = some (st, sc) := h
      exact Option.some.inj this
    obtain ⟨h1, h2, h3⟩ := minFold_spec xs x
    rw [hm] at h1 h2 h3
    constructor
    · intro y hy
      rcases List.mem_cons.mp hy with rfl | hy
      · exact h1
      · exact h2 y hy
    · rcases h3 with heq | ⟨l₁, l₂, hdec, hlt, hstrict⟩
      · refine ⟨[], xs, ?_, by simp⟩
        rw [← heq]
        rfl
      · refine ⟨x :: l₁, l₂, ?_, ?_⟩
        · rw [List.cons_append]
          exact congrArg (List.cons x) hdec
        · intro y hy
          rcases List.mem_cons.mp hy with rfl | hy
          · exact hlt
          · exact hstrict y hy

theorem C6_witness :
    minByKey [((1:ℤ), (5:ℤ)), (2, 3), (3, 3)] = some (2, 3) ∧
    ((∀ x ∈ [((1:ℤ), (5:ℤ)), (2, 3), (3, 3)], (3:ℤ) ≤ x.2) ∧
     ∃ l₁ l₂, [((1:ℤ), (5:ℤ)), (2, 3), (3, 3)] = l₁ ++ ((2:ℤ), (3:ℤ)) :: l₂ ∧
       ∀ x ∈ l₁, (3:ℤ) < x.2) :=
  ⟨by decide, C6_min_reduction [((1:ℤ), (5:ℤ)), (2, 3), (3, 3)] 2 3 (by decide)⟩

/-- C3: if no iteration improves best_score for patience consecutive
iterations, the optimize loop terminates within that window: the number
of iterations executed is at most the (one-based) iteration index of the
last best_score improvement plus patience, for both optimizers, whenever
patience ≥ 1.  (With patience = 0 the epsilon-greedy loop never breaks,
since its counter test is an equality that is skipped over.) -/
theorem C3_patience_window {σ γ : Type} [LinearOrder γ]
    (Phc : HCParams σ γ) (Peg : EGParams σ γ) (ihc ieg : σ) (n m : ℕ)
    (tr tr2 : List Bool) (fin fin2 : SearchState σ γ) :
    (1 ≤ Phc.patience →
      runLoop (HillClimbing.step Phc) 0 n (initState Phc.eval ihc) = some (tr, fin) →
      tr.length ≤ lastTrue tr + Phc.patience) ∧
    (1 ≤ Peg.patience →
      runLoop (EpsilonGreedy.step Peg) 0 m (initState Peg.eval ieg) = some (tr2, fin2) →
      tr2.length ≤ lastTrue tr2 + Peg.patience) := by
  constructor
  · intro hp h
    have hb := runLoop_patience_bound (HillClimbing.step Phc) Phc.patience 0
      (fun it s s' brk hst =>
        ((hcStep_counter_cases Phc it s s' true brk hst).1 rfl).1)
      (fun it s s' brk hst =>
        ((hcStep_counter_cases Phc it s s' false brk hst).2 rfl).1)
      (fun it s s' imp hlt hst => by
        have hc := hcStep_counter_cases Phc it s s' imp false hst
        cases imp with
        | true =>
          have h0 := (hc.1 rfl).1
          omega
        | false =>
          have h1 := (hc.2 rfl).1
          have h2 := (hc.2 rfl).2
          have h3 : ¬ Phc.patience ≤ s.counter + 1 := fun hle =>
            absurd (h2.mpr hle) (by simp)
          omega)
      (fun it s s' imp hlt hst => by
        have hc := hcStep_counter_cases Phc it s s' imp true hst
        cases imp with
        | true => exact absurd (hc.1 rfl).2 (by simp)
        | false =>
          have h1 := (hc.2 rfl).1
          omega)
      0 n (initState Phc.eval ihc) tr fin hp h
    have h0 : (initState Phc.eval ihc).counter = 0 := rfl
    by_cases hz : lastTrue tr = 0
    · have := hb.1 hz
      omega
    · have := hb.2 hz
      omega
  · intro hp h
    have hb := runLoop_patience_bound (EpsilonGreedy.step Peg) Peg.patience 1
      (fun it s s' brk hst =>
        (egStep_counter_cases Peg it s s' true brk hst).1 rfl)
      (fun it s s' brk hst =>
        (egStep_counter_cases Peg it s s' false brk hst).2.1 rfl)
      (fun it s s' imp hlt hst => by
        have hc := egStep_counter_cases Peg it s s' imp false hst
        have hne : ¬ s'.counter = Peg.patience := fun he =>
          absurd (hc.2.2.mpr he) (by simp)
        cases imp with
        | true =>
          have h0 := hc.1 rfl
          omega
        | false =>
          have h0 := hc.2.1 rfl
          omega)
      (fun it s s' imp hlt hst => by
        have hc := egStep_counter_cases Peg it s s' imp true hst
        have he := hc.2.2.mp rfl
        omega)
      0 m (initState Peg.eval ieg) tr2 fin2 hp h
    have h0 : (initState Peg.eval ieg).counter = 0 := rfl
    by_cases hz : lastTrue tr2 = 0
    · have := hb.1 hz
      omega
    · have := hb.2 hz
      omega

theorem C3_witness :
    1 ≤ hcFixture.patience ∧ 1 ≤ egFixture.patience ∧
    runLoop (HillClimbing.step hcFixture) 0 3 (initState hcFixture.eval 0) =
      some ([true, false], egStepResult) ∧
    runLoop (EpsilonGreedy.step egFixture) 0 3 (initState egFixture.eval 0) =
      some ([true], egStepResult) ∧
    ([true, false] : List Bool).length ≤ lastTrue [true, false] + hcFixture.patience ∧
    ([true] : List Bool).length ≤ lastTrue [true] + egFixture.patience :=
  ⟨by decide, by decide, by decide, by decide,
   (C3_patience_window hcFixture egFixture 0 0 3 3 [true, false] [true]
      egStepResult egStepResult).1 (by decide) (by decide),
   (C3_patience_window hcFixture egFixture 0 0 3 3 [true, false] [true]
      egStepResult egStepResult).2 (by decide) (by decide)⟩

/-- C3 counterexample: with patience = 0 the epsilon-greedy break test
`counter == patience` never fires (the counter starts at 1 after the
first iteration and only grows), so a run with no best_score improvement
at all executes the full n_iter = 3 iterations, exceeding the claimed
window of (index of last improvement) + patience = 0. -/
theorem C3_counterexample :
    runLoop (EpsilonGreedy.step egPatienceZero) 0 3 (initState egPatienceZero.eval 0) =
      some ([false, false, false], egNoImproveFin) ∧
    ¬ ([false, false, false] : List Bool).length ≤
        lastTrue [false, false, false] + egPatienceZero.patience := by
  decide

/-- C4: in HillClimbingOptimizer::optimize the tracked best solution and
score coincide with the current solution and score after every
iteration, so the returned (current_state, current_score) equals the
tracked best; EpsilonGreedyOptimizer::optimize returns the tracked best
snapshot and best_score, which is ≤ the possibly-regressed current
score. -/
theorem C4_best_current_coincide {σ γ : Type} [LinearOrder γ]
    (Phc : HCParams σ γ) (Peg : EGParams σ γ) (ihc ieg : σ) (n m : ℕ) :
    (∀ tr fin,
      runLoop (HillClimbing.step Phc) 0 n (initState Phc.eval ihc) = some (tr, fin) →
      fin.best_state = fin.current_state ∧ fin.best_score = fin.current_score ∧
      HillClimbing.optimize Phc ihc n = some (fin.best_state, fin.best_score)) ∧
    (∀ st sc, EpsilonGreedy.optimize Peg ieg m = some (st, sc) →
      ∃ tr fin,
        runLoop (EpsilonGreedy.step Peg) 0 m (initState Peg.eval ieg) = some (tr, fin) ∧
        st = fin.best_state ∧ sc = fin.best_score ∧ sc ≤ fin.current_score) := by
  constructor
  · intro tr fin h
    have hinv := runLoop_inv (HillClimbing.step Phc)
      (fun s => s.best_state = s.current_state ∧ s.best_score = s.current_score)
      (fun it s s' imp brk hs hst => by
        have spec := hcStep_spec Phc it s s' imp brk hst
        cases imp with
        | true => exact ⟨(spec.2.1 rfl).2.1, (spec.2.1 rfl).2.2.1⟩
        | false =>
          rw [(spec.2.2 rfl).1]
          exact hs)
      0 n (initState Phc.eval ihc) tr fin ⟨rfl, rfl⟩ h
    refine ⟨hinv.1, hinv.2, ?_⟩
    unfold HillClimbing.optimize
    rw [h]
    simp only [Option.map_some']
    rw [hinv.1, hinv.2]
  · intro st sc h
    unfold EpsilonGreedy.optimize at h
    rcases hrun : runLoop (EpsilonGreedy.step Peg) 0 m (initState Peg.eval ieg)
        with _ | ⟨tr, fin⟩ <;> rw [hrun] at h
    · exact absurd h (by simp)
    · simp only [Option.map_some'] at h
      cases h
      have hinv := runLoop_inv (EpsilonGreedy.step Peg)
        (fun s => s.best_score ≤ s.current_score)
        (fun it s s' imp brk hs hst =>
          (egStep_spec Peg it s s' imp brk hst).2.2.2.1)
        0 m (initState Peg.eval ieg) tr fin (le_refl _) hrun
      exact ⟨tr, fin, rfl, rfl, rfl, hinv⟩

theorem C4_witness :
    runLoop (HillClimbing.step hcFixture) 0 3 (initState hcFixture.eval 0) =
      some ([true, false], egStepResult) ∧
    egStepResult.best_state = egStepResult.current_state ∧
    EpsilonGreedy.optimize egFixture 0 3 = some (0, 5) ∧
    (∃ tr fin,
      runLoop (EpsilonGreedy.step egFixture) 0 3 (initState egFixture.eval 0) =
        some (tr, fin) ∧
      (0 : ℤ) = fin.best_state ∧ (5 : ℤ) = fin.best_score ∧
      (5 : ℤ) ≤ fin.current_score) :=
  ⟨by decide,
   ((C4_best_current_coincide hcFixture egFixture 0 0 3 3).1 [true, false]
      egStepResult (by decide)).1,
   by decide,
   (C4_best_current_coincide hcFixture egFixture 0 0 3 3).2 0 5 (by decide)⟩

/-- C7: run returns an error exactly when either (a) no initial
solution-and-score pair is supplied and random generation fails, or
(b) preprocess_solution rejects the resolved initial pair; the error is
raised before optimize executes, so the returned value does not depend
on optimize at all (no partial search state is observed), and these are
the only error paths. -/
theorem C7_run_error_paths {σ γ ε : Type} (m : RunModel σ γ ε)
    (optimize : σ → γ → σ × γ) (initial : Option (σ × γ)) :
    ((∃ e, LocalSearchOptimizer.run m optimize initial = Except.error e) ↔
      ((initial = none ∧ ∃ e, m.generate_random_solution = Except.error e) ∨
       (∃ p, resolveInitial m initial = Except.ok p ∧
         ∃ e, m.preprocess_solution p.1 p.2 = Except.error e))) ∧
    (∀ optimize' : σ → γ → σ × γ,
      (∃ e, LocalSearchOptimizer.run m optimize initial = Except.error e) →
      LocalSearchOptimizer.run m optimize initial =
        LocalSearchOptimizer.run m optimize' initial) := by
  cases initial with
  | some q =>
    cases hp : m.preprocess_solution q.1 q.2 with
    | error e =>
      have hrun : ∀ opt' : σ → γ → σ × γ,
          LocalSearchOptimizer.run m opt' (some q) = Except.error e := by
        intro opt'
        unfold LocalSearchOptimizer.run resolveInitial
        dsimp only
        rw [hp]
      exact ⟨⟨fun _ => Or.inr ⟨q, rfl, e, hp⟩, fun _ => ⟨e, hrun optimize⟩⟩,
             fun opt' _ => by rw [hrun optimize, hrun opt']⟩
    | ok w =>
      have hrun : ∀ opt' : σ → γ → σ × γ,
          LocalSearchOptimizer.run m opt' (some q) =
            Except.ok (m.postprocess_solution (opt' w.1 w.2).1 (opt' w.1 w.2).2) := by
        intro opt'
        unfold LocalSearchOptimizer.run resolveInitial
        dsimp only
        rw [hp]
      constructor
      · constructor
        · rintro ⟨e, he⟩
          rw [hrun optimize] at he
          exact absurd he (by simp)
        · rintro (⟨hn, -⟩ | ⟨p, hres, e, hpe⟩)
          · exact absurd hn (by simp)
          · have hq : q = p := Except.ok.inj hres
            rw [← hq, hp] at hpe
            exact absurd hpe (by simp)
      · rintro opt' ⟨e, he⟩
        rw [hrun optimize] at he
        exact absurd he (by simp)
  | none =>
    cases hg : m.generate_random_solution with
    | error e =>
      have hrun : ∀ opt' : σ → γ → σ × γ,
          LocalSearchOptimizer.run m opt' none = Except.error e := by
        intro opt'
        unfold LocalSearchOptimizer.run resolveInitial
        rw [hg]
      exact ⟨⟨fun _ => Or.inl ⟨rfl, e, rfl⟩, fun _ => ⟨e, hrun optimize⟩⟩,
             fun opt' _ => by rw [hrun optimize, hrun opt']⟩
    | ok p =>
      cases hp : m.preprocess_solution p.1 p.2 with
      | error e =>
        have hrun : ∀ opt' : σ → γ → σ × γ,
            LocalSearchOptimizer.run m opt' none = Except.error e := by
          intro opt'
          unfold LocalSearchOptimizer.run resolveInitial
          rw [hg]
          dsimp only
          rw [hp]
        refine ⟨⟨fun _ => Or.inr ⟨p, ?_, e, hp⟩, fun _ => ⟨e, hrun optimize⟩⟩,
                fun opt' _ => by rw [hrun optimize, hrun opt']⟩
        unfold resolveInitial
        rw [hg]
      | ok w =>
        have hrun : ∀ opt' : σ → γ → σ × γ,
            LocalSearchOptimizer.run m opt' none =
              Except.ok (m.postprocess_solution (opt' w.1 w.2).1 (opt' w.1 w.2).2) := by
          intro opt'
          unfold LocalSearchOptimizer.run resolveInitial
          rw [hg]
          dsimp only
          rw [hp]
        constructor
        · constructor
          · rintro ⟨e, he⟩
            rw [hrun optimize] at he
            exact absurd he (by simp)
          · rintro (⟨-, e, hge⟩ | ⟨p', hres, e, hpe⟩)
            · exact absurd hge (by simp)
            · have hp' : p = p' := by
                have h2 : (Except.ok p : Except ε (σ × γ)) = Except.ok p' := by
                  rw [← hres]
                  unfold resolveInitial
                  rw [hg]
                exact Except.ok.inj h2
              rw [← hp', hp] at hpe
              exact absurd hpe (by simp)
        · rintro opt' ⟨e, he⟩
          rw [hrun optimize] at he
          exact absurd he (by simp)

theorem C7_witness :
    (∃ e, LocalSearchOptimizer.run runFixtureErr (fun s sc => (s, sc)) (some (1, 2)) =
      Except.error e) ∧
    LocalSearchOptimizer.run runFixtureErr (fun s sc => (s, sc)) (some (1, 2)) =
      LocalSearchOptimizer.run runFixtureErr (fun s sc => (s + 1, sc + 1)) (some (1, 2)) :=
  ⟨⟨42, rfl⟩,
   (C7_run_error_paths runFixtureErr (fun s sc => (s, sc)) (some (1, 2))).2
     (fun s sc => (s + 1, sc + 1)) ⟨42, rfl⟩⟩

/-- C8 counterexample: the progress record hands the callback
best_state.clone() — a clone of the Rc handle, not of the solution — so
a callback can mutate the engine's best solution through the shared
RefCell: after a callback that runs progress.state.replace(99), the
engine's own read of its best-state cell yields 99 instead of the value
7 it had written, refuting the claim that the callback cannot mutate the
engine's best solution through the progress record. -/
theorem C8_counterexample :
    finalBestRead (invokeCallback mutatingCallback 0 0 0 10 (fun _ => (7 : ℤ))) 0 = 99 ∧
    finalBestRead (fun _ => (7 : ℤ)) 0 = 7 :=
  ⟨rfl, rfl⟩

/-- C8 (amended): the Progress record passes the iteration index,
accepted-move count and best score by value, but the best solution as a
shared reference-counted mutable cell aliasing the engine's best_state:
the engine's subsequent read of its best cell sees exactly the
callback's writes through the cell handle carried by the progress
record, and some callback does change the engine's best solution this
way. -/
theorem C8_amended_shared_best_cell :
    (∀ (f : OptProgress ℤ → Store ℤ → Store ℤ) (it acc cell : ℕ) (bs : ℤ)
        (store : Store ℤ),
      finalBestRead (invokeCallback f it acc cell bs store) cell =
        readCell
          (f { it := it, accepted_counter := acc, state := cell, score := bs } store)
          cell) ∧
    (∃ f : OptProgress ℤ → Store ℤ → Store ℤ, ∃ store : Store ℤ,
      finalBestRead (invokeCallback f 0 0 0 10 store) 0 ≠ finalBestRead store 0) :=
  ⟨fun _ _ _ _ _ _ => rfl, mutatingCallback, fun _ => 7, by decide⟩

/-- C9: the relative-annealing transition probability
f(c, t, w) = exp(-w (t - c) / c) satisfies f(c, c, w) = 1 for every
c > 0 and every w, and for fixed c > 0 and w > 0 it is strictly
decreasing in t. -/
theorem C9_transition_prob_spec :
    (∀ c w : ℝ, 0 < c → transition_prob c c w = 1) ∧
    (∀ c w t₁ t₂ : ℝ, 0 < c → 0 < w → t₁ < t₂ →
      transition_prob c t₂ w < transition_prob c t₁ w) := by
  constructor
  · intro c w hc
    unfold transition_prob
    rw [sub_self, zero_div, mul_zero, Real.exp_zero]
  · intro c w t₁ t₂ hc hw h
    unfold transition_prob
    apply Real.exp_lt_exp.mpr
    have hdiv : (t₁ - c) / c < (t₂ - c) / c :=
      (div_lt_div_iff_of_pos_right hc).mpr (sub_lt_sub_right h c)
    exact mul_lt_mul_of_neg_left hdiv (neg_lt_zero.mpr hw)

theorem C9_witness :
    (0 : ℝ) < 1 ∧ transition_prob 1 1 1 = 1 ∧
    transition_prob 1 2 1 < transition_prob 1 1 1 :=
  ⟨one_pos, C9_transition_prob_spec.1 1 1 one_pos,
   C9_transition_prob_spec.2 1 1 1 2 one_pos one_pos one_lt_two⟩

/-- C10: with n_trials ≥ 1 the per-iteration min_by_key reduction over
the trial batch always yields a value, so the unwrap after it cannot
panic; with n_trials = 0 the batch is empty, the reduction yields none,
and the first loop iteration of either optimizer panics (embedded as
the loop returning none). -/
theorem C10_unwrap_safety {σ γ : Type} [LinearOrder γ]
    (gen : ℕ → ℕ → σ → γ → σ × γ) :
    (∀ n_trials, 1 ≤ n_trials → ∀ it current_state current_score,
      (minByKey (trialBatch n_trials gen it current_state current_score)).isSome =
        true) ∧
    (∀ it current_state current_score,
      minByKey (trialBatch 0 gen it current_state current_score) = none) ∧
    (∀ P : HCParams σ γ, P.n_trials = 0 → ∀ it r s,
      runLoop (HillClimbing.step P) it (r + 1) s = none) ∧
    (∀ P : EGParams σ γ, P.n_trials = 0 → ∀ it r s,
      runLoop (EpsilonGreedy.step P) it (r + 1) s = none) := by
  refine ⟨?_, fun _ _ _ => rfl, ?_, ?_⟩
  · intro n ht it cs csc
    have hlen : (trialBatch n gen it cs csc).length = n := by
      unfold trialBatch
      rw [List.length_map, List.length_range]
    cases hl : trialBatch n gen it cs csc with
    | nil =>
      rw [hl] at hlen
      simp at hlen
      omega
    | cons x xs => rfl
  · intro P hn it r s
    rw [runLoop_succ]
    have hstep : HillClimbing.step P it s = none := by
      unfold HillClimbing.step
      have hb : trialBatch P.n_trials P.gen it s.current_state s.current_score = [] := by
        rw [hn]
        rfl
      rw [hb]
      rfl
    rw [hstep]
  · intro P hn it r s
    rw [runLoop_succ]
    have hstep : EpsilonGreedy.step P it s = none := by
      unfold EpsilonGreedy.step
      have hb : trialBatch P.n_trials P.gen it s.current_state s.current_score = [] := by
        rw [hn]
        rfl
      rw [hb]
      rfl
    rw [hstep]

theorem C10_witness :
    1 ≤ (2 : ℕ) ∧
    (minByKey (trialBatch 2 (fun _ _ _ _ => ((0 : ℤ), (5 : ℤ))) 0 0 10)).isSome = true ∧
    minByKey (trialBatch 0 (fun _ _ _ _ => ((0 : ℤ), (5 : ℤ))) 0 0 10) = none ∧
    zeroTrialsHC.n_trials = 0 ∧ zeroTrialsEG.n_trials = 0 ∧
    runLoop (HillClimbing.step zeroTrialsHC) 0 1 (initState zeroTrialsHC.eval 0) = none ∧
    runLoop (EpsilonGreedy.step zeroTrialsEG) 0 1 (initState zeroTrialsEG.eval 0) = none :=
  ⟨by decide,
   (C10_unwrap_safety (fun _ _ _ _ => ((0 : ℤ), (5 : ℤ)))).1 2 (by decide) 0 0 10,
   (C10_unwrap_safety (fun _ _ _ _ => ((0 : ℤ), (5 : ℤ)))).2.1 0 0 10,
   rfl, rfl,
   (C10_unwrap_safety (fun _ _ _ _ => ((0 : ℤ), (5 : ℤ)))).2.2.1 zeroTrialsHC rfl 0 0
     (initState zeroTrialsHC.eval 0),
   (C10_unwrap_safety (fun _ _ _ _ => ((0 : ℤ), (5 : ℤ)))).2.2.2 zeroTrialsEG rfl 0 0
     (initState zeroTrialsEG.eval 0)⟩
